import Mathlib

/-!
Verification of the Exact Cover Grover solver
`src/sudoku_nisq/exact_cover_solver.py` against its specification.

All circuit fragments relevant to the claims consist solely of classical
reversible gates (pytket `OpType.X` and `OpType.CnX`), so circuits are
embedded as lists of gates acting on computational-basis states `Q → Bool`.
Line numbers refer to `exact_cover_solver.py`.
-/

/-- Qubits of the solver: the subset-selection register `S[i]` (line 137), the
per-element counter registers `U_i[j]` (pytket register name `U_{i}`, index
`j`, lines 157-161), and the ancilla `anc` (line 171). -/
inductive Q : Type
  | S (i : Nat)
  | U (i : Nat) (j : Nat)
  | anc
  deriving DecidableEq

/-- Computational-basis state of the circuit. -/
def State : Type := Q → Bool

/-- Point update of a basis state. -/
def upd (s : State) (q : Q) (v : Bool) : State :=
  fun q' => if q' = q then v else s q'

/-- Gates emitted by the solver: pytket `OpType.X` on one qubit, and
`OpType.CnX` on a qubit list whose last entry is the target and whose
remaining entries are the controls. -/
inductive Gate : Type
  | X (q : Q)
  | CnX (qs : List Q)
  deriving DecidableEq

/-- Basis-state action of one gate.  `CnX` flips its last qubit exactly when
all remaining qubits are 1; an empty qubit list acts as the identity. -/
def applyGate (g : Gate) (s : State) : State :=
  match g with
  | Gate.X q => upd s q (!(s q))
  | Gate.CnX qs =>
    match qs.getLast? with
    | none => s
    | some t => if (qs.dropLast).all (fun c => s c) then upd s t (!(s t)) else s

/-- Action of a gate list, first gate first. -/
def applyGates (gs : List Gate) (s : State) : State :=
  gs.foldl (fun s' g => applyGate g s') s

/-- Adjoint of a single gate: `X` and multi-controlled `X` are self-adjoint. -/
def daggerGate (g : Gate) : Gate :=
  match g with
  | Gate.X q => Gate.X q
  | Gate.CnX qs => Gate.CnX qs

/-- pytket `Circuit.dagger()` (line 227): each gate adjointed, in reverse
order. -/
def dagger (gs : List Gate) : List Gate :=
  (gs.reverse).map daggerGate

/-- Fuel-driven search for the least `b ≥ b0` with `s ≤ 2 ^ b`. -/
def cwGo (s : Nat) : Nat → Nat → Nat
  | 0, b => b
  | f + 1, b => if s ≤ 2 ^ b then b else cwGo s f (b + 1)

/-- Embeds line 75, `self.b = math.ceil(math.log2(self.s_size))`: the ceiling
of `log2 s_size`, i.e. the least `b` with `s_size ≤ 2 ^ b` (these agree for
every `s_size ≥ 1`; `s_size = 0` would make `math.log2` raise and never
reaches this formula). -/
def counterWidth (s_size : Nat) : Nat := cwGo s_size s_size 0

/-- Embeds line 99: `num_qubits = self.s_size + self.u_size * self.b + 1`. -/
def resource_num_qubits (s_size u_size : Nat) : Nat :=
  s_size + u_size * counterWidth s_size + 1

/-- Subset-register qubits `S[0..s_size)` in creation order (line 137). -/
def sQubits (s_size : Nat) : List Q := (List.range s_size).map Q.S

/-- Counter-register qubits `U_i[j]` in creation order: `i` ascending, `j`
ascending within each register (lines 157-161); this is also the iteration
order of `self.u_qubits`. -/
def uQubits (u_size b : Nat) : List Q :=
  (List.range u_size).flatMap (fun i => (List.range b).map (Q.U i))

/-- Qubits added to `main_circuit` during `_build_circuit` (lines 137-175):
the subset register, all counter registers, and the ancilla.  The classical
register added at line 295 holds bits, not qubits. -/
def mainCircuitQubits (s_size u_size : Nat) : List Q :=
  sQubits s_size ++ uQubits u_size (counterWidth s_size) ++ [Q.anc]

/-- The pytket index `q.index[0]` of a counter qubit, as read at lines 236 and
248 (only ever applied to `U` qubits there). -/
def uIndex : Q → Nat
  | Q.U _ j => j
  | _ => 0

/-- First and third blocks of `_build_oracle` (lines 235-237 and 247-249):
an X gate on every counter qubit whose index is nonzero, in `u_qubits`
iteration order. -/
def xLayer (u_size b : Nat) : List Gate :=
  ((uQubits u_size b).filter (fun q => uIndex q != 0)).map Gate.X

/-- Gates of the oracle circuit built by `_build_oracle` (lines 229-249):
the X layer, one `CnX` whose controls are all counter qubits and whose target
is the ancilla (lines 240-244), and the X layer again. -/
def oracleGates (u_size b : Nat) : List Gate :=
  xLayer u_size b ++ [Gate.CnX (uQubits u_size b ++ [Q.anc])] ++ xLayer u_size b

/-- Embeds line 107: `oracle_gates = 1 + 2 * ((self.u_size - 1) * self.b)`,
in Python's signed integer arithmetic. -/
def resource_oracle_gates (u_size b : Nat) : Int :=
  1 + 2 * (((u_size : Int) - 1) * (b : Int))

/-- Binary value held by element `i`'s counter register `U_i[0..b)`,
little-endian (`U_i[0]` is the least significant bit). -/
def counterVal (s : State) (i : Nat) : Nat → Nat
  | 0 => 0
  | b + 1 => counterVal s i b + (cond (s (Q.U i b)) 1 0) * 2 ^ b

/-- Little-endian binary value of an arbitrary qubit list. -/
def regVal : List Q → State → Nat
  | [], _ => 0
  | q :: r, s => (cond (s q) 1 0) + 2 * regVal r s

/-- Decimal digits of a positive number, most significant first, by repeated
division (structural in the fuel argument; correct whenever `fuel ≥ m`). -/
def decGo : Nat → Nat → List Nat
  | 0, _ => []
  | _ + 1, 0 => []
  | f + 1, m + 1 => decGo f ((m + 1) / 10) ++ [(m + 1) % 10]

/-- Digit string of Python `str(n)` for a natural number. -/
def decStr (n : Nat) : List Nat :=
  match n with
  | 0 => [0]
  | m + 1 => decGo (m + 1) (m + 1)

/-- Initial-segment test on digit strings; `isPre p l` embeds Python
`str.startswith` of the corresponding strings. -/
def isPre : List Nat → List Nat → Bool
  | [], _ => true
  | _ :: _, [] => false
  | a :: p, c :: l => a == c && isPre p l

/-- Strict lexicographic order on digit strings; agrees with Python string
comparison of the register names `U_{i}` restricted to their index part. -/
def lexLt : List Nat → List Nat → Bool
  | [], [] => false
  | [], _ :: _ => true
  | _ :: _, [] => false
  | a :: p, c :: l => decide (a < c) || (a == c && lexLt p l)

/-- pytket's `Circuit.qubits` view returns unit IDs sorted by register name
then index; the names `U_{i}` sort by string order of the decimal index. -/
def sortedUIdx (u_size : Nat) : List Nat :=
  List.insertionSort (fun a c => lexLt (decStr a) (decStr c) = true) (List.range u_size)

/-- An Exact Cover instance as the solver sees it after `__init__`:
`univ` is `enc.universe` (an ordered sequence of distinct elements, line 60)
and `subsets` lists, in the mapping's enumeration order, the elements covered
by each subset (lines 63-66).  Elements are identified by value and resolved
to register indices through `universe.index` (line 205). -/
structure ECInst : Type where
  univ : List Nat
  subsets : List (List Nat)

/-- `len(self.universe)` (line 73). -/
def ECInst.u_size (inst : ECInst) : Nat := inst.univ.length

/-- `len(self.subsets)` (line 74). -/
def ECInst.s_size (inst : ECInst) : Nat := inst.subsets.length

/-- `self.b` (line 75). -/
def ECInst.b (inst : ECInst) : Nat := counterWidth inst.s_size

/-- `self.universe.index(elementU)` (line 205). -/
def uIdx (inst : ECInst) (e : Nat) : Nat := inst.univ.indexOf e

/-- Embeds the predicate `q.reg_name.startswith(label)` of line 207 with
`label = f"U_{i}"`: a name `U_{i'}` starts with `U_{i}` exactly when the
digit string of `i` is an initial segment of the digit string of `i'`; the
subset register's name `"S"` never matches. -/
def startsWithLabel (i : Nat) (q : Q) : Bool :=
  match q with
  | Q.U i' _ => isPre (decStr i) (decStr i')
  | _ => false

/-- The qubits of `count_circuit` as enumerated by pytket's sorted
`Circuit.qubits` view (subset register added at lines 148-151, counter
registers at lines 163-168; `"S"` sorts before every `"U_{i}"`). -/
def countCircuitQubits (inst : ECInst) : List Q :=
  sQubits inst.s_size
    ++ (sortedUIdx inst.u_size).flatMap
         (fun i => (List.range inst.b).map (Q.U i))

/-- The `register` list of line 207: all qubits of `count_circuit` whose
register name starts with `U_{i}`. -/
def register (inst : ECInst) (i : Nat) : List Q :=
  (countCircuitQubits inst).filter (startsWithLabel i)

/-- Index-paired traversal, embedding the explicit counter
`j = 0; ...; j += 1` of lines 198 and 212. -/
def withIdx {α : Type} : Nat → List α → List (Nat × α)
  | _, [] => []
  | j, x :: l => (j, x) :: withIdx (j + 1) l

/-- Control/target lists built by the inner loop of lines 202-210 for one
element with register `r`: `S_list` starts as `[S j]`, absorbs the register's
qubits one at a time, and a copy is appended to `q_list` after every
absorption — the chain of prefixes `S j :: r.take 1, ..., S j :: r`. -/
def ascChains (j : Nat) (r : List Q) : List (List Q) :=
  (List.range r.length).map (fun k => Q.S j :: r.take (k + 1))

/-- The same chains in reverse order (carry-correct descending order). -/
def descChains (j : Nat) (r : List Q) : List (List Q) :=
  (ascChains j r).reverse

/-- `all_lists` of lines 197-212: one entry per subset, in enumeration order;
the entry for subset `j` accumulates, over its elements in element-enumeration
order, the ascending chains over the element's register. -/
def countAllLists (inst : ECInst) : List (List (List Q)) :=
  (withIdx 0 inst.subsets).map
    (fun p => p.2.flatMap (fun e => ascChains p.1 (register inst (uIdx inst e))))

/-- `reversed_lists` of lines 216-219: each subset's list reversed. -/
def countReversedLists (inst : ECInst) : List (List (List Q)) :=
  (countAllLists inst).map List.reverse

/-- Gates of `count_circuit` (lines 222-224): one `CnX` per stored qubit
list, subset blocks in order. -/
def countGates (inst : ECInst) : List Gate :=
  (countReversedLists inst).flatMap (fun el => el.map Gate.CnX)

/-- `count_circuit_dag` (line 227). -/
def countGatesDag (inst : ECInst) : List Gate := dagger (countGates inst)

/-- The oracle of the instance (built from `self.u_size`, `self.b`). -/
def instOracleGates (inst : ECInst) : List Gate :=
  oracleGates inst.u_size inst.b

/-- Gates of `aux_circ` (lines 267-275): counter, oracle, counter dagger. -/
def auxGates (inst : ECInst) : List Gate :=
  countGates inst ++ instOracleGates inst ++ countGatesDag inst

/-- Python exceptions reachable in the modelled fragments, plus the
configuration error that the specification requires. -/
inductive PyErr : Type
  | configurationError
  | overflowError
  | typeErrorComplex
  | zeroDivision
  | mathDomain
  deriving DecidableEq

/-- Termination result of a modelled Python call. -/
inductive Outcome : Type
  | ok
  | raised (e : PyErr)
  deriving DecidableEq

/-- Kinds of operations executed by `resource_estimation`. -/
inductive EstStep : Type
  | setPrecision
  | logComp
  | arith
  | intConversion
  | validationCheck
  deriving DecidableEq

/-- Straight-line operation sequence of `resource_estimation` (lines 81-96):
set `mpmath.mp.dps`, the three logarithms of lines 85-87, the derived
arithmetic of lines 90-93, and the final conversion
`int(mpmath.floor(mpmath.exp(...)))` of line 96.  The body contains no branch
and, in particular, no validation of `num_solutions`. -/
def resource_estimation_steps : List EstStep :=
  [EstStep.setPrecision, EstStep.logComp, EstStep.logComp, EstStep.logComp,
   EstStep.arith, EstStep.arith, EstStep.intConversion]

/-- Termination behavior of `resource_estimation` (lines 77-117) as a
function of `num_solutions`: `mpmath.log num_solutions` returns `-inf` at `0`
and a complex value below `0` (raising nothing); the conversion
`int(mpmath.floor(mpmath.exp(...)))` at line 96 then raises OverflowError for
the infinite value resp. TypeError for the complex one.  No configuration
error is ever raised. -/
def resource_estimation_outcome (num_solutions : Int) : Outcome :=
  if 0 < num_solutions then Outcome.ok
  else if num_solutions = 0 then Outcome.raised PyErr.overflowError
  else Outcome.raised PyErr.typeErrorComplex

/-- Termination behavior of the iteration-count expression of lines 287-288,
`math.floor((math.pi / 4) * math.sqrt((2 ** self.s_size) / self.num_solutions))`:
dividing by `0` raises ZeroDivisionError, and `math.sqrt` of the negative
quotient raises the math-domain ValueError.  No configuration error is ever
raised.  (Float overflow of `2 ** s_size` for astronomically large `s_size`
is outside this model.) -/
def build_iterations_outcome (num_solutions : Int) : Outcome :=
  if 0 < num_solutions then Outcome.ok
  else if num_solutions = 0 then Outcome.raised PyErr.zeroDivision
  else Outcome.raised PyErr.mathDomain

/-- Embeds lines 70-71: `if num_solutions is None: self.num_solutions =
puzzle.num_solutions` — with no else branch.  The result is the value of
`self.num_solutions` after `__init__`; `none` means the attribute was never
assigned by this code (a later read raises AttributeError). -/
def init_num_solutions (puzzle_num_solutions : Int)
    (num_solutions : Option Int) : Option Int :=
  match num_solutions with
  | none => some puzzle_num_solutions
  | some _ => none

/-- Ambient interpreter state relevant to the estimator: mpmath's global
decimal-precision setting `mpmath.mp.dps`. -/
structure MpState : Type where
  dps : Nat
  deriving DecidableEq

/-- Effect of `resource_estimation` on the ambient mpmath context: line 82
executes `mpmath.mp.dps = 50`, and the previous precision is never restored
before returning. -/
def resource_estimation_mp (st : MpState) : MpState := MpState.mk 50

/-- The all-zero basis state. -/
def sAllFalse : State := fun _ => false

/-- Basis state with counter register `U_0` (width 2) holding the value 2:
bit 0 clear, bit 1 set.  Every counter register is nonzero here, yet no
counter holds the value 1. -/
def cexOracleState : State :=
  fun q =>
    match q with
    | Q.U 0 1 => true
    | _ => false

/-- Basis state in which every subset-selection qubit is 1 and all other
qubits are 0. -/
def sSubsetsOn : State :=
  fun q =>
    match q with
    | Q.S _ => true
    | _ => false

/-- The concrete scenario of spec section 8: universe `{1,2,3}` (indices
`0,1,2`), subsets `A = {1,2}`, `B = {2,3}`, `C = {1,3}`. -/
def instEx : ECInst := ECInst.mk [1, 2, 3] [[1, 2], [2, 3], [1, 3]]

/- ===================  Theorems  =================== -/

lemma cwGo_succ (s f b : Nat) :
    cwGo s (f + 1) b = if s ≤ 2 ^ b then b else cwGo s f (b + 1) := rfl

lemma cwGo_ge (s : Nat) : ∀ f b, b ≤ cwGo s f b := by
  intro f
  induction f with
  | zero => intro b; exact Nat.le_refl b
  | succ n ih =>
    intro b
    rw [cwGo_succ]
    by_cases h : s ≤ 2 ^ b
    · rw [if_pos h]
    · rw [if_neg h]
      have := ih (b + 1)
      omega

lemma cwGo_le_pow (s : Nat) : ∀ f b, s ≤ 2 ^ (b + f) → s ≤ 2 ^ cwGo s f b := by
  intro f
  induction f with
  | zero => intro b h; simpa using h
  | succ n ih =>
    intro b h
    rw [cwGo_succ]
    by_cases hb : s ≤ 2 ^ b
    · rw [if_pos hb]; exact hb
    · rw [if_neg hb]
      refine ih (b + 1) ?_
      rw [show b + 1 + n = b + (n + 1) by omega]
      exact h

lemma cwGo_min (s : Nat) : ∀ f b c, b ≤ c → s ≤ 2 ^ c → cwGo s f b ≤ c := by
  intro f
  induction f with
  | zero => intro b c hbc _; exact hbc
  | succ n ih =>
    intro b c hbc hc
    rw [cwGo_succ]
    by_cases hb : s ≤ 2 ^ b
    · rw [if_pos hb]; exact hbc
    · rw [if_neg hb]
      refine ih (b + 1) c ?_ hc
      rcases Nat.eq_or_lt_of_le hbc with h | h
      · subst h; exact absurd hc hb
      · omega

/-- `counterWidth` is an upper witness: `s ≤ 2 ^ counterWidth s`. -/
lemma counterWidth_le_pow (s : Nat) : s ≤ 2 ^ counterWidth s := by
  refine cwGo_le_pow s s 0 ?_
  have := Nat.lt_two_pow s
  simpa using Nat.le_of_lt this

/-- `counterWidth` is the least such exponent, hence the ceiling of `log2`. -/
lemma counterWidth_min (s c : Nat) (h : s ≤ 2 ^ c) : counterWidth s ≤ c :=
  cwGo_min s s 0 c (Nat.zero_le c) h

lemma counterWidth_pos (s : Nat) (h : 2 ≤ s) : 1 ≤ counterWidth s := by
  obtain ⟨k, rfl⟩ : ∃ k, s = k + 2 := ⟨s - 2, by omega⟩
  unfold counterWidth
  rw [show k + 2 = (k + 1) + 1 from rfl, cwGo_succ]
  rw [if_neg (by simp)]
  have h4 := cwGo_ge (k + 1 + 1) (k + 1) (0 + 1)
  omega

/-- C7 (amended): for every `s_size ≥ 2` the counter width
`b = ceil(log2 s_size)` is at least 1 and suffices for every count in
`[0, s_size - 1]`, i.e. `s_size ≤ 2 ^ b`; the full claimed range
`[0, s_size]`, i.e. `s_size ≤ 2 ^ b - 1`, fits exactly when `s_size` is not
itself a power of two (`2 ^ b ≠ s_size`). -/
theorem counterWidth_bounds_c7 (s : Nat) (h : 2 ≤ s) :
    1 ≤ counterWidth s ∧ s ≤ 2 ^ counterWidth s
      ∧ (s ≤ 2 ^ counterWidth s - 1 ↔ 2 ^ counterWidth s ≠ s) := by
  have h1 := counterWidth_pos s h
  have h2 := counterWidth_le_pow s
  have h3 : 1 ≤ 2 ^ counterWidth s := Nat.one_le_two_pow
  exact ⟨h1, h2, by omega⟩

/-- C7 counterexample: at `s_size = 2` (a power of two) the claim fails:
`b = counterWidth 2 = 1 = ceil(log2 2)`, but a `1`-bit counter cannot hold
every count in `[0, 2]`, since `2 > 2 ^ 1 - 1`. -/
theorem counterWidth_cex_c7 :
    counterWidth 2 = 1 ∧ ¬ (2 ≤ 2 ^ counterWidth 2 - 1) := by decide

theorem counterWidth_c7_witness :
    1 ≤ counterWidth 3 ∧ 3 ≤ 2 ^ counterWidth 3
      ∧ (3 ≤ 2 ^ counterWidth 3 - 1 ↔ 2 ^ counterWidth 3 ≠ 3) :=
  counterWidth_bounds_c7 3 (by omega)

lemma length_uQubits (u b : Nat) : (uQubits u b).length = u * b := by
  induction u with
  | zero => simp [uQubits]
  | succ n ih =>
    unfold uQubits at ih ⊢
    rw [List.range_succ, List.flatMap_append, List.length_append, ih]
    simp [Nat.succ_mul]

/-- C8: for every `s_size ≥ 1`, the estimator's qubit count (line 99) and the
number of qubits allocated in the assembled circuit (lines 137-175) both
equal `s_size + u_size * b + 1`, where `b = ceil(log2 s_size)` (and `b = 0`
at `s_size = 1`). -/
theorem qubit_count_c8 (s_size u_size : Nat) (h : 1 ≤ s_size) :
    resource_num_qubits s_size u_size
        = s_size + u_size * counterWidth s_size + 1
  ∧ (mainCircuitQubits s_size u_size).length
        = s_size + u_size * counterWidth s_size + 1 := by
  refine ⟨rfl, ?_⟩
  unfold mainCircuitQubits sQubits
  rw [List.length_append, List.length_append, List.length_map,
    List.length_range, length_uQubits]
  rfl

theorem qubit_count_c8_witness :
    resource_num_qubits 3 3 = 3 + 3 * counterWidth 3 + 1
  ∧ (mainCircuitQubits 3 3).length = 3 + 3 * counterWidth 3 + 1 :=
  qubit_count_c8 3 3 (by omega)

lemma uIndex_U (i j : Nat) : uIndex (Q.U i j) = j := rfl

lemma filter_map_U (i : Nat) (l : List Nat) :
    ((l.map (Q.U i)).filter (fun q => uIndex q != 0))
      = (l.filter (fun j => j != 0)).map (Q.U i) := by
  induction l with
  | nil => rfl
  | cons a t ih =>
    simp only [List.map_cons, List.filter_cons, uIndex_U]
    by_cases h : a = 0
    · subst h
      simpa using ih
    · simp [h, ih]

lemma length_filter_ne_zero (b : Nat) :
    ((List.range b).filter (fun j => j != 0)).length = b - 1 := by
  induction b with
  | zero => rfl
  | succ n ih =>
    rw [List.range_succ, List.filter_append, List.length_append, ih]
    cases n with
    | zero => rfl
    | succ m => simp

lemma length_filter_uQubits (u b : Nat) :
    ((uQubits u b).filter (fun q => uIndex q != 0)).length = u * (b - 1) := by
  induction u with
  | zero => simp [uQubits]
  | succ n ih =>
    unfold uQubits at ih ⊢
    rw [List.range_succ, List.flatMap_append, List.filter_append,
      List.length_append, ih]
    have hone : (([n].flatMap (fun i => (List.range b).map (Q.U i))).filter
        (fun q => uIndex q != 0)).length = b - 1 := by
      simp only [List.flatMap_cons, List.flatMap_nil, List.append_nil]
      rw [filter_map_U, List.length_map, length_filter_ne_zero]
    rw [hone]
    simp [Nat.succ_mul]

lemma length_xLayer (u b : Nat) : (xLayer u b).length = u * (b - 1) := by
  unfold xLayer
  rw [List.length_map, length_filter_uQubits]

lemma length_oracleGates (u b : Nat) :
    (oracleGates u b).length = 2 * (u * (b - 1)) + 1 := by
  unfold oracleGates
  rw [List.length_append, List.length_append, length_xLayer]
  simp
  omega

/-- C10 (amended): for every `u_size` and every `b ≥ 1`, the oracle circuit
contains exactly `1 + 2 * u_size * (b - 1)` gates, and this count equals the
estimator's reported `oracle_gates = 1 + 2 * ((u_size - 1) * b)` exactly when
`u_size = b`. -/
theorem oracle_gate_count_c10 (u b : Nat) (hb : 1 ≤ b) :
    ((oracleGates u b).length : Int) = 1 + 2 * (u : Int) * ((b : Int) - 1)
  ∧ (((oracleGates u b).length : Int) = resource_oracle_gates u b ↔ u = b) := by
  have hlen := length_oracleGates u b
  have hcast : ((b - 1 : Nat) : Int) = (b : Int) - 1 := by omega
  constructor
  · rw [hlen]
    push_cast [hcast]
    ring
  · rw [hlen]
    unfold resource_oracle_gates
    push_cast [hcast]
    constructor
    · intro hEq
      have h2 : (u : Int) = (b : Int) := by nlinarith [hEq]
      exact_mod_cast h2
    · intro hEq
      subst hEq
      ring

/-- C10 counterexample: for the instance `s_size = 1` (so `b = counterWidth 1
= 0`) and `u_size = 1`, the oracle contains exactly 1 gate while the claimed
expression `1 + 2 * u_size * (b - 1)` evaluates to `-1`; moreover the
estimator's `oracle_gates` also equals the true count 1 here, although
`u_size = 1 ≠ 0 = b`, refuting "coincides only when u_size = b". -/
theorem oracle_gate_count_cex_c10 :
    (oracleGates 1 (counterWidth 1)).length = 1
  ∧ 1 + 2 * (1 : Int) * ((counterWidth 1 : Int) - 1) = -1
  ∧ resource_oracle_gates 1 (counterWidth 1)
      = ((oracleGates 1 (counterWidth 1)).length : Int)
  ∧ (1 : Nat) ≠ counterWidth 1 := by decide

theorem oracle_gate_count_c10_witness :
    ((oracleGates 2 2).length : Int)
        = 1 + 2 * ((2 : Nat) : Int) * (((2 : Nat) : Int) - 1)
  ∧ (((oracleGates 2 2).length : Int) = resource_oracle_gates 2 2
        ↔ (2 : Nat) = 2) :=
  oracle_gate_count_c10 2 2 (by omega)

/-- C2 is violated by the code: with `num_solutions = 0` or negative, neither
`resource_estimation` nor the build-time iteration count raises a
configuration error before arithmetic; the logarithm resp. the division are
attempted and the failure surfaces inside the arithmetic library, and the
estimator's straight-line operation sequence contains a logarithm but no
validation step at all. -/
theorem no_validation_c2 :
    resource_estimation_outcome 0 = Outcome.raised PyErr.overflowError
  ∧ resource_estimation_outcome (-1) = Outcome.raised PyErr.typeErrorComplex
  ∧ build_iterations_outcome 0 = Outcome.raised PyErr.zeroDivision
  ∧ build_iterations_outcome (-1) = Outcome.raised PyErr.mathDomain
  ∧ resource_estimation_outcome 0 ≠ Outcome.raised PyErr.configurationError
  ∧ build_iterations_outcome 0 ≠ Outcome.raised PyErr.configurationError
  ∧ EstStep.validationCheck ∉ resource_estimation_steps
  ∧ EstStep.logComp ∈ resource_estimation_steps := by decide

/-- C6 is violated by the code: an omitted `num_solutions` does default to the
puzzle's known solution count, but a supplied value is dropped — lines 70-71
assign `self.num_solutions` only in the `None` branch, so the supplied `5` is
not the value available to iteration-count computation or resource
estimation. -/
theorem num_solutions_dropped_c6 :
    init_num_solutions 7 none = some 7
  ∧ init_num_solutions 7 (some 5) = none
  ∧ init_num_solutions 7 (some 5) ≠ some 5 := by decide

/-- C9 counterexample: calling the estimator with ambient precision 30 leaves
the global precision at 50, so the ambient arbitrary-precision context is not
unchanged across the call. -/
theorem global_dps_cex_c9 :
    (resource_estimation_mp (MpState.mk 30)).dps = 50
  ∧ (resource_estimation_mp (MpState.mk 30)).dps ≠ 30 := by decide

/-- C9 (amended): the estimator does mutate shared ambient state — line 82
sets `mpmath.mp.dps` to 50 and leaves it there, so the ambient precision
survives a call unchanged exactly when it was already 50. -/
theorem global_dps_c9 (st : MpState) :
    (resource_estimation_mp st).dps = 50
  ∧ ((resource_estimation_mp st).dps = st.dps ↔ st.dps = 50) := by
  refine ⟨rfl, ?_⟩
  show (50 : Nat) = st.dps ↔ st.dps = 50
  exact eq_comm

lemma applyGates_append (g1 g2 : List Gate) (s : State) :
    applyGates (g1 ++ g2) s = applyGates g2 (applyGates g1 s) := by
  unfold applyGates
  exact List.foldl_append ..

lemma applyGates_cons (g : Gate) (gs : List Gate) (s : State) :
    applyGates (g :: gs) s = applyGates gs (applyGate g s) := rfl

lemma upd_eval_same (s : State) (q : Q) (v : Bool) : upd s q v q = v := by
  simp [upd]

lemma upd_eval_other (s : State) (q q' : Q) (v : Bool) (h : q' ≠ q) :
    upd s q v q' = s q' := by
  simp [upd, h]

lemma applyGates_xList (qs : List Q) (s : State) (hnd : qs.Nodup) :
    applyGates (qs.map Gate.X) s = fun q => if q ∈ qs then !(s q) else s q := by
  induction qs generalizing s with
  | nil =>
    funext q
    simp [applyGates]
  | cons a t ih =>
    rw [List.map_cons, applyGates_cons]
    have hat : a ∉ t := (List.nodup_cons.mp hnd).1
    rw [ih (applyGate (Gate.X a) s) (List.nodup_cons.mp hnd).2]
    funext q
    by_cases hqt : q ∈ t
    · have hqa : q ≠ a := fun h => hat (h ▸ hqt)
      simp [hqt, List.mem_cons, applyGate, upd, hqa]
    · by_cases hqa : q = a
      · subst hqa
        simp [hqt, applyGate, upd]
      · simp [hqt, hqa, List.mem_cons, applyGate, upd]

lemma mem_uQubits {u b : Nat} {q : Q} :
    q ∈ uQubits u b ↔ ∃ i, i < u ∧ ∃ j, j < b ∧ q = Q.U i j := by
  unfold uQubits
  rw [List.mem_flatMap]
  constructor
  · rintro ⟨i, hi, hq⟩
    rw [List.mem_range] at hi
    rw [List.mem_map] at hq
    obtain ⟨j, hj, rfl⟩ := hq
    rw [List.mem_range] at hj
    exact ⟨i, hi, j, hj, rfl⟩
  · rintro ⟨i, hi, j, hj, rfl⟩
    refine ⟨i, ?_, ?_⟩
    · rw [List.mem_range]; exact hi
    · rw [List.mem_map]
      exact ⟨j, by rw [List.mem_range]; exact hj, rfl⟩

lemma anc_not_mem_uQubits (u b : Nat) : Q.anc ∉ uQubits u b := by
  intro h
  obtain ⟨i, _, j, _, hq⟩ := mem_uQubits.mp h
  exact absurd hq (by simp)

lemma s_not_mem_uQubits (u b k : Nat) : Q.S k ∉ uQubits u b := by
  intro h
  obtain ⟨i, _, j, _, hq⟩ := mem_uQubits.mp h
  exact absurd hq (by simp)

lemma nodup_flatMap_U (l : List Nat) (hl : l.Nodup) (b : Nat) :
    (l.flatMap (fun i => (List.range b).map (Q.U i))).Nodup := by
  induction l with
  | nil => simp
  | cons a t ih =>
    rw [List.flatMap_cons]
    obtain ⟨hat, htd⟩ := List.nodup_cons.mp hl
    have hinj : Function.Injective (Q.U a) := by
      intro x y hxy
      injection hxy with h1 h2
    refine List.Nodup.append ((List.nodup_range b).map hinj) (ih htd) ?_
    intro q hq hq'
    rw [List.mem_map] at hq
    obtain ⟨j, _, rfl⟩ := hq
    rw [List.mem_flatMap] at hq'
    obtain ⟨i, hi, hq'⟩ := hq'
    rw [List.mem_map] at hq'
    obtain ⟨j', _, hj'⟩ := hq'
    injection hj' with hia hja
    exact hat (hia ▸ hi)

lemma nodup_uQubits (u b : Nat) : (uQubits u b).Nodup :=
  nodup_flatMap_U (List.range u) (List.nodup_range u) b

lemma all_congr_mem {α : Type} (l : List α) (p r : α → Bool)
    (h : ∀ a ∈ l, p a = r a) : l.all p = l.all r := by
  induction l with
  | nil => rfl
  | cons a t ih =>
    have hhead : p a = r a := h a (List.mem_cons_self a t)
    have htail : t.all p = t.all r :=
      ih (fun x hx => h x (List.mem_cons_of_mem a hx))
    rw [List.all_cons, List.all_cons, hhead, htail]

/-- Basis-state semantics of the oracle circuit of `_build_oracle`
(lines 229-249): every qubit other than the ancilla is restored, and the
ancilla is flipped exactly when, in the X-conjugated frame, every counter
qubit reads 1 — that is, when every `U_i[0]` is 1 and every `U_i[j]`, `j ≥ 1`,
is 0. -/
lemma oracle_eq (u b : Nat) (s : State) :
    applyGates (oracleGates u b) s
      = upd s Q.anc (Bool.xor (s Q.anc)
          ((uQubits u b).all
            (fun q => if uIndex q != 0 then !(s q) else s q))) := by
  have hnd : ((uQubits u b).filter (fun q => uIndex q != 0)).Nodup :=
    (nodup_uQubits u b).filter _
  unfold oracleGates xLayer
  rw [applyGates_append, applyGates_append]
  rw [applyGates_xList _ s hnd]
  have hanc1 : Q.anc ∉ (uQubits u b).filter (fun q => uIndex q != 0) := by
    intro h
    exact anc_not_mem_uQubits u b (List.mem_filter.mp h).1
  have hs1u : ∀ q ∈ uQubits u b,
      (fun q => if q ∈ (uQubits u b).filter (fun q => uIndex q != 0)
          then !(s q) else s q) q
        = (if uIndex q != 0 then !(s q) else s q) := by
    intro q hq
    by_cases hp : (uIndex q != 0) = true
    · have hmem : q ∈ (uQubits u b).filter (fun q => uIndex q != 0) :=
        List.mem_filter.mpr ⟨hq, hp⟩
      simp only [hmem, if_true, hp]
    · have hmem : q ∉ (uQubits u b).filter (fun q => uIndex q != 0) := by
        intro hmem
        exact hp (List.mem_filter.mp hmem).2
      simp [hmem, hp]
  have hcond : ((uQubits u b).all
        (fun q => if q ∈ (uQubits u b).filter (fun q => uIndex q != 0)
            then !(s q) else s q))
      = (uQubits u b).all (fun q => if uIndex q != 0 then !(s q) else s q) :=
    all_congr_mem _ _ _ hs1u
  have hmid : ∀ s' : State, applyGates [Gate.CnX (uQubits u b ++ [Q.anc])] s'
      = (if (uQubits u b).all (fun q => s' q) = true
          then upd s' Q.anc (!(s' Q.anc)) else s') := by
    intro s'
    show applyGate (Gate.CnX (uQubits u b ++ [Q.anc])) s' = _
    simp only [applyGate, List.getLast?_concat, List.dropLast_concat]
  rw [hmid]
  rw [hcond]
  by_cases hc : ((uQubits u b).all
      (fun q => if uIndex q != 0 then !(s q) else s q)) = true
  · rw [if_pos hc]
    rw [applyGates_xList _ _ hnd]
    funext q
    by_cases hq : q = Q.anc
    · subst hq
      rw [if_neg hanc1, upd_eval_same, upd_eval_same, if_neg hanc1, hc]
      cases s Q.anc <;> rfl
    · rw [upd_eval_other _ _ _ _ hq, upd_eval_other _ _ _ _ hq]
      by_cases hqx : q ∈ (uQubits u b).filter (fun q => uIndex q != 0)
      · rw [if_pos hqx, if_pos hqx, Bool.not_not]
      · rw [if_neg hqx, if_neg hqx]
  · rw [if_neg hc]
    rw [applyGates_xList _ _ hnd]
    funext q
    have hcf : ((uQubits u b).all
        (fun q => if uIndex q != 0 then !(s q) else s q)) = false :=
      Bool.eq_false_iff.mpr hc
    by_cases hq : q = Q.anc
    · subst hq
      rw [if_neg hanc1, if_neg hanc1, upd_eval_same, hcf]
      cases s Q.anc <;> rfl
    · rw [upd_eval_other _ _ _ _ hq]
      by_cases hqx : q ∈ (uQubits u b).filter (fun q => uIndex q != 0)
      · rw [if_pos hqx, if_pos hqx, Bool.not_not]
      · rw [if_neg hqx, if_neg hqx]

lemma counterVal_succ (s : State) (i b : Nat) :
    counterVal s i (b + 1)
      = counterVal s i b + (cond (s (Q.U i b)) 1 0) * 2 ^ b := rfl

lemma counterVal_lt (s : State) (i : Nat) : ∀ b, counterVal s i b < 2 ^ b := by
  intro b
  induction b with
  | zero => exact Nat.one_pos
  | succ n ih =>
    have hp : (2 : Nat) ^ (n + 1) = 2 * 2 ^ n := by ring
    cases hb : s (Q.U i n) <;> simp [counterVal_succ, hb] <;> omega

lemma counterVal_eq_one_iff (s : State) (i : Nat) :
    ∀ b, 1 ≤ b → (counterVal s i b = 1 ↔
      (s (Q.U i 0) = true ∧ ∀ j, 0 < j → j < b → s (Q.U i j) = false)) := by
  intro b
  induction b with
  | zero => intro h; omega
  | succ n ih =>
    intro _
    cases n with
    | zero =>
      have hc : counterVal s i 1 = 0 + (cond (s (Q.U i 0)) 1 0) * 2 ^ 0 := rfl
      cases hb : s (Q.U i 0)
      · simp [hc, hb]
      · simp [hc, hb]
        intro j hj0 hj1
        omega
    | succ m =>
      have h1 : 1 ≤ m + 1 := by omega
      have hc := counterVal_succ s i (m + 1)
      have hlt := counterVal_lt s i (m + 1)
      have hpow : 2 ≤ 2 ^ (m + 1) := by
        have := Nat.one_lt_two_pow_iff.mpr (show m + 1 ≠ 0 by omega)
        omega
      constructor
      · intro hval
        cases hb : s (Q.U i (m + 1))
        · rw [hc, hb] at hval
          simp at hval
          obtain ⟨h0, hrest⟩ := (ih h1).mp hval
          refine ⟨h0, ?_⟩
          intro j hj0 hjlt
          by_cases hj : j < m + 1
          · exact hrest j hj0 hj
          · have hje : j = m + 1 := by omega
            subst hje
            exact hb
        · rw [hc, hb] at hval
          simp at hval
          omega
      · rintro ⟨h0, hall⟩
        have htop : s (Q.U i (m + 1)) = false := hall (m + 1) (by omega) (by omega)
        rw [hc, htop]
        simp
        exact (ih h1).mpr ⟨h0, fun j a c => hall j a (by omega)⟩

lemma oracleCond_iff (u b : Nat) (hb : 1 ≤ b) (s : State) :
    ((uQubits u b).all (fun q => if uIndex q != 0 then !(s q) else s q) = true)
      ↔ (∀ i, i < u → counterVal s i b = 1) := by
  rw [List.all_eq_true]
  constructor
  · intro h i hi
    rw [counterVal_eq_one_iff s i b hb]
    constructor
    · have h0 := h (Q.U i 0) (mem_uQubits.mpr ⟨i, hi, 0, by omega, rfl⟩)
      simpa [uIndex_U] using h0
    · intro j hj0 hjb
      have hj := h (Q.U i j) (mem_uQubits.mpr ⟨i, hi, j, hjb, rfl⟩)
      have hne : j != 0 := by simp; omega
      rw [uIndex_U] at hj
      simp [hne] at hj
      exact hj
  · intro h q hq
    obtain ⟨i, hi, j, hj, rfl⟩ := mem_uQubits.mp hq
    have hone := (counterVal_eq_one_iff s i b hb).mp (h i hi)
    by_cases hj0 : j = 0
    · subst hj0
      simp [uIndex_U, hone.1]
    · simp [uIndex_U, hj0, hone.2 j (by omega) hj]

/-- C1 (amended): for every instance with `u_size ≥ 1` and `b ≥ 1`, the oracle
circuit restores every qubit except the ancilla to its pre-oracle basis value
(the X conjugation is undone), and it flips the ancilla exactly on those
computational-basis states in which every element's `b`-qubit counter register
holds the value 1 (exactly one selected subset covers each element) — not
merely a nonzero value. -/
theorem oracle_marks_exactly_one_c1 (u b : Nat) (hu : 1 ≤ u) (hb : 1 ≤ b)
    (s : State) :
    (∀ q, q ≠ Q.anc → applyGates (oracleGates u b) s q = s q)
  ∧ (applyGates (oracleGates u b) s Q.anc = !(s Q.anc)
      ↔ (∀ i, i < u → counterVal s i b = 1))
  ∧ (applyGates (oracleGates u b) s Q.anc = s Q.anc
      ↔ ¬ (∀ i, i < u → counterVal s i b = 1)) := by
  have hO := congrFun (oracle_eq u b s) Q.anc
  rw [upd_eval_same] at hO
  refine ⟨?_, ?_, ?_⟩
  · intro q hq
    rw [congrFun (oracle_eq u b s) q]
    exact upd_eval_other _ _ _ _ hq
  · rw [hO, ← oracleCond_iff u b hb s]
    cases ((uQubits u b).all
        (fun q => if uIndex q != 0 then !(s q) else s q)) <;>
      cases s Q.anc <;> simp
  · rw [hO, ← oracleCond_iff u b hb s]
    cases ((uQubits u b).all
        (fun q => if uIndex q != 0 then !(s q) else s q)) <;>
      cases s Q.anc <;> simp

/-- C1 counterexample: take `u_size = 1`, `b = 2` (realized e.g. by `s_size =
3`) and the basis state in which the single counter register holds the
nonzero value 2 (`U_0[0] = 0`, `U_0[1] = 1`).  The claim says the oracle must
flip the ancilla here (every counter is nonzero), but the circuit leaves the
ancilla at 0. -/
theorem oracle_nonzero_cex_c1 :
    counterVal cexOracleState 0 2 = 2
  ∧ cexOracleState Q.anc = false
  ∧ applyGates (oracleGates 1 2) cexOracleState Q.anc = false := by decide

theorem oracle_c1_witness :
    applyGates (oracleGates 1 1) sAllFalse (Q.S 0) = sAllFalse (Q.S 0)
  ∧ (applyGates (oracleGates 1 1) sAllFalse Q.anc = !(sAllFalse Q.anc)
      ↔ (∀ i, i < 1 → counterVal sAllFalse i 1 = 1)) :=
  ⟨(oracle_marks_exactly_one_c1 1 1 (by omega) (by omega) sAllFalse).1
      (Q.S 0) (by decide),
   (oracle_marks_exactly_one_c1 1 1 (by omega) (by omega) sAllFalse).2.1⟩

lemma flatMap_map_comp {α β γ : Type} (l : List α) (f : α → β) (g : β → List γ) :
    (l.map f).flatMap g = l.flatMap (fun a => g (f a)) := by
  induction l with
  | nil => rfl
  | cons a t ih => simp [List.flatMap_cons, ih]

lemma reverse_flatMap {α β : Type} (l : List α) (f : α → List β) :
    (l.flatMap f).reverse = l.reverse.flatMap (fun a => (f a).reverse) := by
  induction l with
  | nil => rfl
  | cons a t ih => simp [List.flatMap_cons, List.reverse_append, ih]

/-- Structural form of `_build_counter`'s emitted gate sequence: per-subset
blocks in collection enumeration order; within a subset's block the chains of
its elements appear in the reverse of the subset's element-enumeration order,
and each element contributes its chains in descending (carry-correct)
order. -/
lemma countGates_eq (inst : ECInst) :
    countGates inst
      = (withIdx 0 inst.subsets).flatMap
          (fun p => ((p.2.reverse).flatMap
              (fun e => descChains p.1 (register inst (uIdx inst e)))).map
            Gate.CnX) := by
  unfold countGates countReversedLists countAllLists
  rw [List.map_map, flatMap_map_comp]
  congr 1
  funext p
  show ((p.2.flatMap
      (fun e => ascChains p.1 (register inst (uIdx inst e)))).reverse).map
        Gate.CnX = _
  rw [reverse_flatMap]
  rfl

lemma descChains_snoc (j : Nat) (r : List Q) (t : Q) :
    descChains j (r ++ [t]) = (Q.S j :: (r ++ [t])) :: descChains j r := by
  unfold descChains ascChains
  have hlen : (r ++ [t]).length = r.length + 1 := by simp
  rw [hlen, List.range_succ, List.map_append]
  have h1 : (List.range r.length).map (fun k => Q.S j :: (r ++ [t]).take (k + 1))
      = (List.range r.length).map (fun k => Q.S j :: r.take (k + 1)) := by
    apply List.map_congr_left
    intro k hk
    rw [List.mem_range] at hk
    rw [List.take_append_of_le_length (by omega)]
  have h2 : Q.S j :: (r ++ [t]).take (r.length + 1) = Q.S j :: (r ++ [t]) := by
    congr 1
    rw [← hlen, List.take_length]
  rw [h1, List.reverse_append]
  simp only [List.map_cons, List.map_nil, List.reverse_cons, List.reverse_nil,
    List.nil_append, List.cons_append]
  rw [h2]

lemma regVal_lt (r : List Q) (s : State) : regVal r s < 2 ^ r.length := by
  induction r with
  | nil => exact Nat.one_pos
  | cons q t ih =>
    have hv : regVal (q :: t) s = (cond (s q) 1 0) + 2 * regVal t s := rfl
    have hp : (2 : Nat) ^ (q :: t).length = 2 * 2 ^ t.length := by
      rw [List.length_cons]
      ring
    cases hq : s q <;> simp [hv, hq] <;> omega

lemma regVal_congr (r : List Q) (s1 s2 : State) (h : ∀ q ∈ r, s1 q = s2 q) :
    regVal r s1 = regVal r s2 := by
  induction r with
  | nil => rfl
  | cons q t ih =>
    show (cond (s1 q) 1 0) + 2 * regVal t s1
        = (cond (s2 q) 1 0) + 2 * regVal t s2
    rw [h q (by simp), ih (fun x hx => h x (by simp [hx]))]

lemma regVal_snoc (r : List Q) (t : Q) (s : State) :
    regVal (r ++ [t]) s = regVal r s + (cond (s t) 1 0) * 2 ^ r.length := by
  induction r with
  | nil => simp [regVal]
  | cons q r' ih =>
    show (cond (s q) 1 0) + 2 * regVal (r' ++ [t]) s = _
    rw [ih]
    show _ = (cond (s q) 1 0) + 2 * regVal r' s
        + (cond (s t) 1 0) * 2 ^ (q :: r').length
    rw [List.length_cons, pow_succ]
    ring

lemma all_iff_regVal (r : List Q) (s : State) :
    (r.all (fun q => s q) = true) ↔ regVal r s = 2 ^ r.length - 1 := by
  induction r with
  | nil => simp [regVal]
  | cons q t ih =>
    have hv : regVal (q :: t) s = (cond (s q) 1 0) + 2 * regVal t s := rfl
    have hlt := regVal_lt t s
    have hone : 1 ≤ (2 : Nat) ^ t.length := Nat.one_le_two_pow
    have hp : (2 : Nat) ^ (q :: t).length = 2 * 2 ^ t.length := by
      rw [List.length_cons]
      ring
    rw [List.all_cons, hv]
    cases hq : s q
    · simp only [Bool.false_and, cond_false]
      constructor
      · intro h
        exact absurd h (by simp)
      · intro h
        exfalso
        omega
    · simp only [Bool.true_and, cond_true]
      rw [ih]
      omega

lemma applyGate_CnX_concat (cs : List Q) (t : Q) (s : State) :
    applyGate (Gate.CnX (cs ++ [t])) s
      = (if cs.all (fun c => s c) = true then upd s t (!(s t)) else s) := by
  simp only [applyGate, List.getLast?_concat, List.dropLast_concat]

/-- Basis-state semantics of the descending chain emitted for one element:
it acts only on the register `r`, and (for `r` without duplicates and not
containing the control `S j`) it adds the control bit to the value of `r`,
modulo `2 ^ |r|` — a controlled increment. -/
lemma descChains_increment (j : Nat) :
    ∀ (r : List Q), r.Nodup → Q.S j ∉ r → ∀ (s : State),
      (∀ q, q ∉ r → applyGates ((descChains j r).map Gate.CnX) s q = s q)
    ∧ regVal r (applyGates ((descChains j r).map Gate.CnX) s)
        = (regVal r s + cond (s (Q.S j)) 1 0) % 2 ^ r.length := by
  intro r
  induction r using List.reverseRecOn with
  | nil =>
    intro _ _ s
    constructor
    · intro q _
      rfl
    · simp [descChains, ascChains, regVal, applyGates, Nat.mod_one]
  | append_singleton r t ihr =>
    intro hnd hS s
    have h3 := List.nodup_append.mp hnd
    have hnd' : r.Nodup := h3.1
    have htr : t ∉ r := fun h => h3.2.2 h (by simp)
    have hSr : Q.S j ∉ r := fun h => hS (List.mem_append.mpr (Or.inl h))
    have hSt : Q.S j ≠ t := fun h => hS (List.mem_append.mpr (Or.inr (by simp [h])))
    have hv := regVal_lt r s
    have hone : 1 ≤ (2 : Nat) ^ r.length := Nat.one_le_two_pow
    have hp : (2 : Nat) ^ (r ++ [t]).length = 2 * 2 ^ r.length := by
      rw [List.length_append, List.length_singleton, pow_succ]
      ring
    rw [descChains_snoc, List.map_cons, applyGates_cons,
      show Q.S j :: (r ++ [t]) = (Q.S j :: r) ++ [t] from rfl,
      applyGate_CnX_concat]
    cases hsj : s (Q.S j) with
    | false =>
      have hall : ((Q.S j :: r).all (fun c => s c)) = false := by
        rw [List.all_cons, hsj, Bool.false_and]
      rw [hall, if_neg (by simp)]
      obtain ⟨ihf, ihv⟩ := ihr hnd' hSr s
      constructor
      · intro q hq
        exact ihf q (fun h => hq (List.mem_append.mpr (Or.inl h)))
      · rw [regVal_snoc, regVal_snoc, ihv, ihf t htr, hsj]
        simp only [cond_false, Nat.add_zero]
        rw [Nat.mod_eq_of_lt hv, hp]
        cases hst : s t
        · simp only [cond_false]
          have hlt2 : regVal r s + 0 * 2 ^ r.length < 2 * 2 ^ r.length := by omega
          rw [Nat.mod_eq_of_lt hlt2]
        · simp only [cond_true]
          have hlt2 : regVal r s + 1 * 2 ^ r.length < 2 * 2 ^ r.length := by omega
          rw [Nat.mod_eq_of_lt hlt2]
    | true =>
      rw [List.all_cons, hsj, Bool.true_and]
      cases hall : r.all (fun c => s c) with
      | true =>
        rw [if_pos rfl]
        obtain ⟨ihf, ihv⟩ := ihr hnd' hSr (upd s t (!(s t)))
        have hval : regVal r s = 2 ^ r.length - 1 := (all_iff_regVal r s).mp hall
        have hupd_r : ∀ q ∈ r, (upd s t (!(s t))) q = s q := by
          intro q hq
          exact upd_eval_other _ _ _ _ (fun h => htr (h ▸ hq))
        have hSkeep : (upd s t (!(s t))) (Q.S j) = s (Q.S j) :=
          upd_eval_other _ _ _ _ hSt
        constructor
        · intro q hq
          have hqr : q ∉ r := fun h => hq (List.mem_append.mpr (Or.inl h))
          have hqt : q ≠ t := fun h => hq (List.mem_append.mpr (Or.inr (by simp [h])))
          rw [ihf q hqr, upd_eval_other _ _ _ _ hqt]
        · rw [regVal_snoc, regVal_snoc, ihv, ihf t htr, upd_eval_same,
            regVal_congr r _ s hupd_r, hSkeep, hsj, hval]
          simp only [cond_true]
          have hz : 2 ^ r.length - 1 + 1 = 2 ^ r.length := by omega
          rw [hz, Nat.mod_self, hp]
          cases hst : s t
          · simp only [Bool.not_false, cond_true, cond_false]
            have hlt2 : 2 ^ r.length - 1 + 0 * 2 ^ r.length + 1 < 2 * 2 ^ r.length := by
              omega
            rw [Nat.mod_eq_of_lt hlt2]
            omega
          · simp only [Bool.not_true, cond_true, cond_false]
            have he : 2 ^ r.length - 1 + 1 * 2 ^ r.length + 1 = 2 * 2 ^ r.length := by
              omega
            rw [he, Nat.mod_self]
            omega
      | false =>
        rw [if_neg (by simp)]
        obtain ⟨ihf, ihv⟩ := ihr hnd' hSr s
        have hne : regVal r s ≠ 2 ^ r.length - 1 := by
          intro h
          rw [← all_iff_regVal r s] at h
          rw [h] at hall
          exact absurd hall (by simp)
        constructor
        · intro q hq
          exact ihf q (fun h => hq (List.mem_append.mpr (Or.inl h)))
        · rw [regVal_snoc, regVal_snoc, ihv, ihf t htr, hsj]
          simp only [cond_true]
          have hlt1 : regVal r s + 1 < 2 ^ r.length := by omega
          rw [Nat.mod_eq_of_lt hlt1, hp]
          cases hst : s t
          · simp only [cond_false]
            have hlt2 : regVal r s + 0 * 2 ^ r.length + 1 < 2 * 2 ^ r.length := by
              omega
            rw [Nat.mod_eq_of_lt hlt2]
            omega
          · simp only [cond_true]
            have hlt2 : regVal r s + 1 * 2 ^ r.length + 1 < 2 * 2 ^ r.length := by
              omega
            rw [Nat.mod_eq_of_lt hlt2]
            omega

lemma mem_register_isU (inst : ECInst) (i : Nat) (q : Q)
    (h : q ∈ register inst i) : ∃ a c, q = Q.U a c := by
  unfold register at h
  have hp := (List.mem_filter.mp h).2
  cases q with
  | U a c => exact ⟨a, c, rfl⟩
  | S k => simp [startsWithLabel] at hp
  | anc => simp [startsWithLabel] at hp

lemma nodup_countCircuitQubits (inst : ECInst) :
    (countCircuitQubits inst).Nodup := by
  unfold countCircuitQubits sQubits
  refine List.Nodup.append ?_ ?_ ?_
  · refine (List.nodup_range _).map ?_
    intro x y hxy
    injection hxy
  · refine nodup_flatMap_U _ ?_ inst.b
    exact (List.perm_insertionSort _ _).nodup_iff.mpr (List.nodup_range _)
  · intro q hq hq'
    rw [List.mem_map] at hq
    obtain ⟨k, _, rfl⟩ := hq
    rw [List.mem_flatMap] at hq'
    obtain ⟨i, _, hq'⟩ := hq'
    rw [List.mem_map] at hq'
    obtain ⟨c, _, hq'⟩ := hq'
    exact absurd hq' (by simp)

lemma nodup_register (inst : ECInst) (i : Nat) : (register inst i).Nodup :=
  (nodup_countCircuitQubits inst).filter _

lemma s_not_mem_register (inst : ECInst) (i k : Nat) :
    Q.S k ∉ register inst i := by
  intro h
  obtain ⟨a, c, hq⟩ := mem_register_isU inst i _ h
  exact absurd hq (by simp)

lemma anc_not_mem_register (inst : ECInst) (i : Nat) :
    Q.anc ∉ register inst i := by
  intro h
  obtain ⟨a, c, hq⟩ := mem_register_isU inst i _ h
  exact absurd hq (by simp)

/-- Every gate of the counter circuit is a `CnX` over a duplicate-free qubit
list that avoids the ancilla. -/
lemma countGates_shape (inst : ECInst) (g : Gate) (hg : g ∈ countGates inst) :
    ∃ qs, g = Gate.CnX qs ∧ qs.Nodup ∧ Q.anc ∉ qs := by
  rw [countGates_eq] at hg
  rw [List.mem_flatMap] at hg
  obtain ⟨p, _, hg⟩ := hg
  rw [List.mem_map] at hg
  obtain ⟨ql, hql, rfl⟩ := hg
  rw [List.mem_flatMap] at hql
  obtain ⟨e, _, hql⟩ := hql
  unfold descChains at hql
  rw [List.mem_reverse] at hql
  unfold ascChains at hql
  rw [List.mem_map] at hql
  obtain ⟨k, _, rfl⟩ := hql
  refine ⟨_, rfl, ?_, ?_⟩
  · rw [List.nodup_cons]
    constructor
    · intro hmem
      exact s_not_mem_register inst (uIdx inst e) p.1
        (List.mem_of_mem_take hmem)
    · exact (nodup_register inst (uIdx inst e)).sublist
        (List.take_sublist _ _)
  · intro hmem
    rw [List.mem_cons] at hmem
    rcases hmem with hmem | hmem
    · exact absurd hmem (by simp)
    · exact anc_not_mem_register inst (uIdx inst e)
        (List.mem_of_mem_take hmem)

lemma upd_upd (s : State) (q : Q) (v w : Bool) :
    upd (upd s q v) q w = upd s q w := by
  funext q'
  by_cases h : q' = q <;> simp [upd, h]

lemma upd_self_id (s : State) (q : Q) : upd s q (s q) = s := by
  funext q'
  by_cases h : q' = q
  · subst h
    simp [upd]
  · simp [upd, h]

lemma upd_comm (s : State) (a t : Q) (v w : Bool) (h : t ≠ a) :
    upd (upd s a v) t w = upd (upd s t w) a v := by
  funext q'
  by_cases h1 : q' = t
  · subst h1
    simp [upd, h]
  · by_cases h2 : q' = a
    · subst h2
      simp [upd, h1]
    · simp [upd, h1, h2]

lemma applyGate_CnX_invol (qs : List Q) (hnd : qs.Nodup) (s : State) :
    applyGate (Gate.CnX qs) (applyGate (Gate.CnX qs) s) = s := by
  rcases List.eq_nil_or_concat qs with rfl | ⟨cs, t, hqs⟩
  · rfl
  · rw [List.concat_eq_append] at hqs
    subst hqs
    have h3 := List.nodup_append.mp hnd
    have htc : t ∉ cs := fun h => h3.2.2 h (by simp)
    have hin : applyGate (Gate.CnX (cs ++ [t])) s
        = (if cs.all (fun c => s c) = true then upd s t (!(s t)) else s) :=
      applyGate_CnX_concat cs t s
    by_cases hc : cs.all (fun c => s c) = true
    · rw [hin, if_pos hc, applyGate_CnX_concat,
        all_congr_mem cs _ (fun c => s c)
          (fun a ha => upd_eval_other s t a (!(s t))
            (fun h : a = t => htc (h ▸ ha))),
        if_pos hc, upd_eval_same, upd_upd, Bool.not_not, upd_self_id]
    · rw [hin, if_neg hc, applyGate_CnX_concat, if_neg hc]

lemma dagger_eq_reverse (gs : List Gate) : dagger gs = gs.reverse := by
  unfold dagger
  have hdg : ∀ g, daggerGate g = g := by
    intro g
    cases g <;> rfl
  have h2 : (gs.reverse).map daggerGate = (gs.reverse).map id :=
    List.map_congr_left (fun a _ => hdg a)
  rw [h2, List.map_id]

lemma applyGates_cancel (gs : List Gate)
    (h : ∀ g ∈ gs, ∀ s : State, applyGate g (applyGate g s) = s) (s : State) :
    applyGates (gs ++ gs.reverse) s = s := by
  induction gs generalizing s with
  | nil => rfl
  | cons g t ih =>
    have hassoc : (g :: t) ++ (g :: t).reverse
        = g :: ((t ++ t.reverse) ++ [g]) := by
      rw [List.reverse_cons]
      simp
    rw [hassoc, applyGates_cons, applyGates_append]
    rw [ih (fun g' hg' => h g' (by simp [hg'])) (applyGate g s)]
    show applyGate g (applyGate g s) = s
    exact h g (by simp) s

/-- Round trip of the counter circuit: `count_circuit` followed by
`count_circuit.dagger()` is the identity on every basis state. -/
lemma count_dagger_id (inst : ECInst) (s : State) :
    applyGates (countGates inst ++ countGatesDag inst) s = s := by
  unfold countGatesDag
  rw [dagger_eq_reverse]
  refine applyGates_cancel _ ?_ s
  intro g hg s'
  obtain ⟨qs, rfl, hnd, _⟩ := countGates_shape inst g hg
  exact applyGate_CnX_invol qs hnd s'

lemma applyGate_CnX_upd_anc (qs : List Q) (hanc : Q.anc ∉ qs) (s : State)
    (v : Bool) :
    applyGate (Gate.CnX qs) (upd s Q.anc v)
      = upd (applyGate (Gate.CnX qs) s) Q.anc v := by
  rcases List.eq_nil_or_concat qs with rfl | ⟨cs, t, hqs⟩
  · rfl
  · rw [List.concat_eq_append] at hqs
    subst hqs
    have htanc : t ≠ Q.anc := fun h => hanc (List.mem_append.mpr (Or.inr (by simp [h])))
    have hcs : ∀ c ∈ cs, (upd s Q.anc v) c = s c := by
      intro c hc
      exact upd_eval_other _ _ _ _
        (fun h => hanc (List.mem_append.mpr (Or.inl (h ▸ hc))))
    rw [applyGate_CnX_concat, applyGate_CnX_concat, all_congr_mem _ _ _ hcs]
    by_cases hc : cs.all (fun c => s c) = true
    · rw [if_pos hc, if_pos hc, upd_eval_other _ _ _ _ htanc,
        upd_comm _ _ _ _ _ htanc]
    · rw [if_neg hc, if_neg hc]

lemma applyGates_upd_anc (gs : List Gate)
    (h : ∀ g ∈ gs, ∃ qs, g = Gate.CnX qs ∧ Q.anc ∉ qs) (s : State) (v : Bool) :
    applyGates gs (upd s Q.anc v) = upd (applyGates gs s) Q.anc v := by
  induction gs generalizing s with
  | nil => rfl
  | cons g t ih =>
    rw [applyGates_cons, applyGates_cons]
    obtain ⟨qs, hgeq, hanc⟩ := h g (by simp)
    subst hgeq
    rw [applyGate_CnX_upd_anc qs hanc s v]
    exact ih (fun g' hg' => h g' (by simp [hg'])) _

/-- C4: for every instance and every computational-basis setting of the
subset register (ancilla arbitrary, counters starting at zero), the counter
circuit followed by its dagger — the `aux_circ` sequence with the oracle
replaced by the identity — returns every counter-register qubit to zero; and
the full Counter → Oracle → Counter-inverse block (`aux_circ`) likewise
leaves every counter register all-zero for the next Grover iteration. -/
theorem uncompute_c4 (inst : ECInst) (s0 : State)
    (h0 : ∀ i j, s0 (Q.U i j) = false) :
    (∀ i j, applyGates (countGates inst ++ countGatesDag inst) s0 (Q.U i j)
        = false)
  ∧ (∀ i j, applyGates (auxGates inst) s0 (Q.U i j) = false) := by
  constructor
  · intro i j
    rw [count_dagger_id]
    exact h0 i j
  · intro i j
    unfold auxGates
    have hsplit : applyGates
        (countGates inst ++ instOracleGates inst ++ countGatesDag inst) s0
        = applyGates (countGatesDag inst)
            (applyGates (instOracleGates inst)
              (applyGates (countGates inst) s0)) := by
      rw [applyGates_append, applyGates_append]
    rw [hsplit]
    unfold instOracleGates
    rw [oracle_eq inst.u_size inst.b (applyGates (countGates inst) s0)]
    have hdagshape : ∀ g ∈ countGatesDag inst,
        ∃ qs, g = Gate.CnX qs ∧ Q.anc ∉ qs := by
      intro g hg
      unfold countGatesDag at hg
      rw [dagger_eq_reverse, List.mem_reverse] at hg
      obtain ⟨qs, hgeq, _, hone⟩ := countGates_shape inst g hg
      exact ⟨qs, hgeq, hone⟩
    rw [applyGates_upd_anc _ hdagshape]
    have hbase : applyGates (countGatesDag inst)
        (applyGates (countGates inst) s0) = s0 := by
      rw [← applyGates_append]
      exact count_dagger_id inst s0
    rw [hbase]
    rw [upd_eval_other _ _ _ _ (by simp)]
    exact h0 i j

theorem uncompute_c4_witness :
    applyGates (countGates instEx ++ countGatesDag instEx) sSubsetsOn
        (Q.U 0 0) = false
  ∧ applyGates (auxGates instEx) sSubsetsOn (Q.U 1 1) = false :=
  ⟨(uncompute_c4 instEx sSubsetsOn (fun _ _ => rfl)).1 0 0,
   (uncompute_c4 instEx sSubsetsOn (fun _ _ => rfl)).2 1 1⟩

/-- C5: the counter circuit's gate list consists of per-subset blocks in the
subset collection's enumeration order (`withIdx` pairs each subset with its
selection index `j`); within the block of subset `j` the element chains
appear in the reverse of the subset's element-enumeration order, each element
contributing the descending multi-controlled chain over its register; and
such a descending chain over any duplicate-free register `r` not containing
the control `S j` is a controlled increment — it leaves every qubit outside
`r` unchanged and adds the control bit to the value of `r` modulo `2 ^ |r|` —
so successive controlled increments on a shared counter register compose into
a correct running count. -/
theorem counter_order_c5 (inst : ECInst) (j : Nat) (r : List Q) (s : State)
    (hnd : r.Nodup) (hS : Q.S j ∉ r) :
    countGates inst
      = (withIdx 0 inst.subsets).flatMap
          (fun p => ((p.2.reverse).flatMap
              (fun e => descChains p.1 (register inst (uIdx inst e)))).map
            Gate.CnX)
  ∧ (∀ q, q ∉ r → applyGates ((descChains j r).map Gate.CnX) s q = s q)
  ∧ regVal r (applyGates ((descChains j r).map Gate.CnX) s)
      = (regVal r s + cond (s (Q.S j)) 1 0) % 2 ^ r.length :=
  ⟨countGates_eq inst, (descChains_increment j r hnd hS s).1,
   (descChains_increment j r hnd hS s).2⟩

theorem counter_order_c5_witness :
    countGates instEx
      = (withIdx 0 instEx.subsets).flatMap
          (fun p => ((p.2.reverse).flatMap
              (fun e => descChains p.1 (register instEx (uIdx instEx e)))).map
            Gate.CnX)
  ∧ (∀ q, q ∉ [Q.U 0 0] →
        applyGates ((descChains 0 [Q.U 0 0]).map Gate.CnX) sSubsetsOn q
          = sSubsetsOn q)
  ∧ regVal [Q.U 0 0]
        (applyGates ((descChains 0 [Q.U 0 0]).map Gate.CnX) sSubsetsOn)
      = (regVal [Q.U 0 0] sSubsetsOn + cond (sSubsetsOn (Q.S 0)) 1 0)
          % 2 ^ (Q.U 0 0 :: ([] : List Q)).length :=
  counter_order_c5 instEx 0 [Q.U 0 0] sSubsetsOn (by decide) (by decide)
